import Mathlib

/-!
Verification of the GitHub activity-aggregation routines of `src/app.py`
(a Streamlit portfolio page).  The aggregator functions are embedded
shallowly: HTTP traffic is modelled by explicit response oracles, Python
`datetime.date` values by a Gregorian `Date` structure, Python strings by
Lean `String` (whose logical model is a list of characters, matching the
code-point semantics of Python string slicing and comparison), and the
`while` loops by fuelled recursion with proved fuel bounds.
-/

set_option maxRecDepth 4000

/-! ## Characters, code-point comparison and slicing

Python compares strings lexicographically by code point; `charListLe`
is that comparison on the character lists underlying `String`.
`pyTake s n` models the Python slice `s[:n]`.
-/

/-- Lexicographic (code point) comparison of character lists; this is the
comparison Python uses for `str <= str`. -/
def charListLe : List Char → List Char → Bool
  | [], _ => true
  | _ :: _, [] => false
  | c :: cs, e :: es =>
    if c < e then true
    else if e < c then false
    else charListLe cs es

/-- Python string slice `s[:n]` (code-point based, like Lean character lists). -/
def pyTake (s : String) (n : Nat) : String := ⟨s.data.take n⟩

/-! ## Gregorian dates, as in Python `datetime.date`

Python dates use the proleptic Gregorian calendar with years 1..9999.
`Date.pred` is `day - timedelta(days=1)`; `Date.toIso` is `str(day)`,
the zero-padded `YYYY-MM-DD` rendering (exact for the supported years).
-/

@[ext]
structure Date where
  y : Nat
  m : Nat
  d : Nat
deriving DecidableEq, Repr

/-- Gregorian leap-year rule (as implemented by Python `datetime`). -/
def isLeap (y : Nat) : Bool := y % 4 = 0 && (y % 100 ≠ 0 || y % 400 = 0)

/-- Number of days of month `m` of year `y`. -/
def daysInMonth (y m : Nat) : Nat :=
  if m = 2 then (if isLeap y then 29 else 28)
  else if m = 4 ∨ m = 6 ∨ m = 9 ∨ m = 11 then 30
  else 31

/-- The previous calendar day, `day - timedelta(days=1)`. -/
def Date.pred (dt : Date) : Date :=
  if 1 < dt.d then ⟨dt.y, dt.m, dt.d - 1⟩
  else if 1 < dt.m then ⟨dt.y, dt.m - 1, daysInMonth dt.y (dt.m - 1)⟩
  else ⟨dt.y - 1, 12, 31⟩

/-- Iterated predecessor: the date `n` days before `dt`. -/
def Date.predIter (dt : Date) : Nat → Date
  | 0 => dt
  | n + 1 => (Date.predIter dt n).pred

/-- A date representable by Python `datetime.date` (year 1..9999, month and
day in range). -/
def Date.valid (dt : Date) : Prop :=
  1 ≤ dt.y ∧ dt.y ≤ 9999 ∧ 1 ≤ dt.m ∧ dt.m ≤ 12 ∧ 1 ≤ dt.d ∧ dt.d ≤ daysInMonth dt.y dt.m

instance (dt : Date) : Decidable dt.valid := by
  unfold Date.valid; infer_instance

/-- The ISO rendering `str(day)` = `YYYY-MM-DD`, digit by digit. -/
def Date.toIso (dt : Date) : String :=
  ⟨[Nat.digitChar (dt.y / 1000 % 10), Nat.digitChar (dt.y / 100 % 10),
    Nat.digitChar (dt.y / 10 % 10), Nat.digitChar (dt.y % 10), '-',
    Nat.digitChar (dt.m / 10 % 10), Nat.digitChar (dt.m % 10), '-',
    Nat.digitChar (dt.d / 10 % 10), Nat.digitChar (dt.d % 10)]⟩

/-- Strict calendar order on dates (lexicographic on year, month, day). -/
def dateLt (a b : Date) : Prop :=
  a.y < b.y ∨ (a.y = b.y ∧ (a.m < b.m ∨ (a.m = b.m ∧ a.d < b.d)))

/-- Calendar order on dates. -/
def dateLe (a b : Date) : Prop := dateLt a b ∨ a = b

instance (a b : Date) : Decidable (dateLt a b) := by
  unfold dateLt; infer_instance

instance (a b : Date) : Decidable (dateLe a b) := by
  unfold dateLe; infer_instance

/-! ## HTTP model

Each outbound `requests.get` either yields a response with a status code
and a parsed JSON body, or raises a network-level exception (`exn`).
`github_request` models the helper of the same name in `src/app.py`:
`raise_for_status` raises exactly for status codes >= 400, so a response
below 400 is returned and anything else becomes an exception
(`Except.error`).
-/

inductive Resp (α : Type) where
  | ok (status : Nat) (body : α)
  | exn
deriving DecidableEq

/-- Repository object as consumed by the code: `name`, `fork`, `created_at`. -/
structure Repo where
  name : String
  fork : Bool
  created_at : String
deriving DecidableEq, Repr

/-- Commit object as consumed by the code: the authored date string
`commit["commit"]["author"]["date"]`. -/
structure Commit where
  date : String
deriving DecidableEq, Repr

/-- Network oracle for the two commit-aggregation functions: the response to
the repository-listing request, and the response to the commit-listing
request of each repository (keyed by repository name). -/
structure CommitsEnv where
  repos : Resp (List Repo)
  commits : String → Resp (List Commit)

/-- Model of `github_request` in `src/app.py`: perform the request and call
`raise_for_status`; statuses >= 400 and network errors raise. -/
def github_request {α : Type} (r : Resp α) : Except Unit α :=
  match r with
  | .exn => .error ()
  | .ok s body => if 400 ≤ s then .error () else .ok body

/-! ## Sorting (Python `sorted` on strings, pandas sort on month keys) -/

/-- Insert a string into a list, keeping code-point order. -/
def insertStr (s : String) : List String → List String
  | [] => [s]
  | t :: rest => if charListLe s.data t.data then s :: t :: rest else t :: insertStr s rest

/-- Insertion sort by code-point order; models Python `sorted` on strings. -/
def sortStr : List String → List String
  | [] => []
  | s :: rest => insertStr s (sortStr rest)

/-- Insert a month-count pair into a list, keeping key order. -/
def insertByKey (kv : String × Nat) : List (String × Nat) → List (String × Nat)
  | [] => [kv]
  | e :: rest => if charListLe kv.1.data e.1.data then kv :: e :: rest else e :: insertByKey kv rest

/-- Insertion sort of month-count pairs by month key.  Models
`df.sort_values("Month")`: for well-formed `YYYY-MM` keys the datetime
order used by pandas coincides with code-point order. -/
def sortByKey : List (String × Nat) → List (String × Nat)
  | [] => []
  | e :: rest => insertByKey e (sortByKey rest)

/-! ## compute_streak (src/app.py lines 229-237)

The Python loop walks backward from today while `str(day) in dates`.  The
loop is embedded with fuel `len(dates) + 1`; the theorems below prove this
fuel is never the reason the recursion stops (each counted day consumes a
distinct member of `dates`).
-/

/-- Fuelled unfolding of the `while str(day) in dates` loop. -/
def streakFuel (dates : List String) : Nat → Date → Nat
  | 0, _ => 0
  | fuel + 1, day =>
    if Date.toIso day ∈ dates then streakFuel dates fuel day.pred + 1 else 0

/-- Model of `compute_streak(dates)`, with the wall-clock `today` passed
explicitly.  Fuel `dates.length + 1` suffices: see the fuel-independence
part of the termination theorem. -/
def compute_streak (dates : List String) (today : Date) : Nat :=
  streakFuel dates (dates.length + 1) today

/-! ## get_weekly_streak_increase (src/app.py lines 190-195) -/

/-- Model of `get_weekly_streak_increase(dates)`: count the entries whose
string is >= `str(today - timedelta(days=7))` (a Python string
comparison), with the wall-clock `today` passed explicitly. -/
def get_weekly_streak_increase (dates : List String) (today : Date) : Nat :=
  (dates.filter (fun d => charListLe (Date.toIso (Date.predIter today 7)).data d.data)).length

/-! ## get_daily_commit_dates (src/app.py lines 208-226)

The repository listing goes through `github_request` with no surrounding
try/except, so a listing failure escapes as an exception (`Except.error`).
Each per-repository commit fetch is wrapped in try/except continue.
The collected day strings form a set returned as a sorted list.
-/

/-- Model of `get_daily_commit_dates(user, months)` against a network
oracle.  `Except.error` means an exception escapes to the caller. -/
def get_daily_commit_dates_run (env : CommitsEnv) : Except Unit (List String) :=
  match github_request env.repos with
  | .error e => .error e
  | .ok repos =>
    .ok (sortStr (repos.foldl (fun acc r =>
      match github_request (env.commits r.name) with
      | .error _ => acc
      | .ok cs => acc ++ cs.map (fun c => pyTake c.date 10)) []).dedup)

/-- Number of HTTP requests a single `get_daily_commit_dates` call issues:
one listing request plus one commit request per listed repository. -/
def daily_requests (env : CommitsEnv) : Nat :=
  match github_request env.repos with
  | .error _ => 1
  | .ok repos => 1 + repos.length

/-! ## get_github_monthly_commits (src/app.py lines 76-130)

The whole body sits in one try/except returning `None`; the listing uses
`raise_for_status`, while each commit response is counted only when its
status is exactly 200 and otherwise skipped without raising.  A
network-level exception inside the loop therefore aborts everything.
The result models the sorted (Month, Commits) rows of the DataFrame; the
`pd.to_datetime` step is modelled by the `isYYYYMM` well-formedness check
(a malformed month key would make DataFrame construction raise, hence
`None`).
-/

/-- Dictionary update `monthly_counts[k] = monthly_counts.get(k, 0) + 1`. -/
def bump : List (String × Nat) → String → List (String × Nat)
  | [], k => [(k, 1)]
  | (e, v) :: rest, k =>
    if e = k then (e, v + 1) :: rest else (e, v) :: bump rest k

/-- Fold a list of commits into the month-count dictionary, bucketing each
commit by `commit_date[:7]`. -/
def addCommits (counts : List (String × Nat)) (cs : List Commit) : List (String × Nat) :=
  cs.foldl (fun mcs c => bump mcs (pyTake c.date 7)) counts

/-- The per-repository loop of `get_github_monthly_commits`: status 200
responses are counted, other statuses are skipped, a network exception
aborts (the exception reaches the outer handler). -/
def histLoop (f : String → Resp (List Commit)) : List Repo → List (String × Nat) → Option (List (String × Nat))
  | [], counts => some counts
  | r :: rs, counts =>
    match f r.name with
    | .exn => none
    | .ok s cs => if s = 200 then histLoop f rs (addCommits counts cs) else histLoop f rs counts

/-- Syntactic check that a month key has the shape `YYYY-MM` with a month
in 01..12, the keys `pd.to_datetime` accepts here. -/
def isYYYYMM (s : String) : Bool :=
  match s.data with
  | [y1, y2, y3, y4, '-', m1, m2] =>
    y1.isDigit && y2.isDigit && y3.isDigit && y4.isDigit && m1.isDigit && m2.isDigit &&
      decide (1 ≤ (m1.toNat - 48) * 10 + (m2.toNat - 48)) &&
      decide ((m1.toNat - 48) * 10 + (m2.toNat - 48) ≤ 12)
  | _ => false

/-- Model of `get_github_monthly_commits(username, months)` against a
network oracle.  `none` is the `return None` of the code (no data, or any
exception caught by the outer handler); `some rows` are the month-sorted
rows of the returned DataFrame. -/
def get_github_monthly_commits_run (env : CommitsEnv) : Option (List (String × Nat)) :=
  match env.repos with
  | .exn => none
  | .ok s repos =>
    if 400 ≤ s then none
    else
      match histLoop env.commits repos [] with
      | none => none
      | some counts =>
        if counts = [] then none
        else if counts.all (fun kv => isYYYYMM kv.1) then some (sortByKey counts) else none

/-- Number of HTTP requests a single `get_github_monthly_commits` call
issues: the listing request, then one commit request per repository up to
and including the first network-level failure. -/
def monthlyLoopRequests (f : String → Resp (List Commit)) : List Repo → Nat
  | [] => 0
  | r :: rs =>
    match f r.name with
    | .exn => 1
    | .ok _ _ => 1 + monthlyLoopRequests f rs

/-- Total request count of one `get_github_monthly_commits` call. -/
def monthly_requests (env : CommitsEnv) : Nat :=
  match env.repos with
  | .exn => 1
  | .ok s repos => if 400 ≤ s then 1 else 1 + monthlyLoopRequests env.commits repos

/-- The commits of the repositories whose commit fetch succeeded with
status 200, in iteration order: the commits the code actually counts. -/
def successfulCommits (repos : List Repo) (f : String → Resp (List Commit)) : List Commit :=
  repos.foldr (fun r acc =>
    match f r.name with
    | .exn => acc
    | .ok s cs => if s = 200 then cs ++ acc else acc) []

/-- Total count stored in the dictionary for month `m` (the sum of the
values whose key is `m`; with distinct keys this is the value at `m`). -/
def valueSum (counts : List (String × Nat)) (m : String) : Nat :=
  ((counts.filter (fun kv => decide (kv.1 = m))).map (fun kv => kv.2)).sum

/-! ## get_repo_count (src/app.py lines 155-175)

The `while True` loop issues one request per iteration (the `params` dict
built by the code is never passed to `requests.get`, so each request is
the plain listing URL; the oracle is therefore indexed by request
number).  A non-200 response or an empty or short page stops the loop,
keeping everything collected so far; the loop is embedded with fuel.
The second component threads the number of requests issued.
-/

/-- Fuelled unfolding of the pagination loop of `get_repo_count`.  Returns
the collected repositories (or a propagating exception) together with the
next request index, which doubles as the running request count. -/
def get_repo_count_loop (trace : Nat → Resp (List Repo)) : Nat → Nat → List Repo → Except Unit (List Repo) × Nat
  | 0, idx, repos => (.ok repos, idx)
  | fuel + 1, idx, repos =>
    match trace idx with
    | .exn => (.error (), idx + 1)
    | .ok status data =>
      if status ≠ 200 then (.ok repos, idx + 1)
      else if data = [] then (.ok repos, idx + 1)
      else if data.length < 100 then (.ok (repos ++ data), idx + 1)
      else get_repo_count_loop trace fuel (idx + 1) (repos ++ data)

/-- Model of `get_repo_count(user)` against a request-indexed oracle:
the non-fork count of the collected repositories, plus the number of
requests issued.  `Except.error` is an uncaught network exception. -/
def get_repo_count_run (trace : Nat → Resp (List Repo)) (fuel : Nat) : Except Unit Nat × Nat :=
  match get_repo_count_loop trace fuel 0 [] with
  | (.ok repos, n) => (.ok (repos.filter (fun r => !r.fork)).length, n)
  | (.error e, n) => (.error e, n)

/-- Requests issued by one `get_repo_count` call. -/
def get_repo_count_requests (trace : Nat → Resp (List Repo)) (fuel : Nat) : Nat :=
  (get_repo_count_run trace fuel).2

/-- Two consecutive page renders each invoke the undecorated
`get_repo_count` afresh (it carries no `st.cache_data` layer), so the
requests of the two invocations add up. -/
def repoCountTwoRenders (trace : Nat → Resp (List Repo)) (fuel : Nat) : Nat :=
  get_repo_count_requests trace fuel + get_repo_count_requests trace fuel

/-! ## get_repos_created_this_year (src/app.py lines 177-188)

A single request (the URL carries `per_page=100` but no page number, so
exactly the first page is consulted); non-200 yields the sentinel 0;
otherwise the count of repositories whose `created_at` starts with
`str(year)`.
-/

/-- The decimal rendering `str(year)` for years 1000..9999. -/
def yearString (y : Nat) : String :=
  ⟨[Nat.digitChar (y / 1000 % 10), Nat.digitChar (y / 100 % 10),
    Nat.digitChar (y / 10 % 10), Nat.digitChar (y % 10)]⟩

/-- Model of `get_repos_created_this_year(user)` with the wall-clock year
passed explicitly.  `Except.error` is an uncaught network exception. -/
def get_repos_created_this_year (resp : Resp (List Repo)) (year : Nat) : Except Unit Nat :=
  match resp with
  | .exn => .error ()
  | .ok s repos =>
    if s ≠ 200 then .ok 0
    else .ok (repos.countP (fun r => (yearString year).data.isPrefixOf r.created_at.data))

/-! ## Specification-side definitions (for refinement comparison)

These two definitions follow the words of the specification, not the
code: `listRepositories` pages with page size 100 until a short page and
discards everything on any non-2xx or network failure, and
`countRepositoriesCreatedThisYear` counts over that full listing.
-/

/-- Modelled from the specification text of `listRepositories`: fetch all
pages until one returns fewer than 100 entries; any non-2xx or
network-level failure discards the partial results (total failure). -/
def spec_listRepositories (trace : Nat → Resp (List Repo)) : Nat → Nat → List Repo → List Repo
  | 0, _, acc => acc
  | fuel + 1, idx, acc =>
    match trace idx with
    | .exn => []
    | .ok s data =>
      if 200 ≤ s ∧ s < 300 then
        (if data.length < 100 then acc ++ data
         else spec_listRepositories trace fuel (idx + 1) (acc ++ data))
      else []

/-- Modelled from the specification text of
`countRepositoriesCreatedThisYear`: the count over the full listing of
the repositories created in the given year. -/
def spec_countReposCreatedThisYear (trace : Nat → Resp (List Repo)) (fuel year : Nat) : Nat :=
  ((spec_listRepositories trace fuel 0 []).filter
    (fun r => (yearString year).data.isPrefixOf r.created_at.data)).length

/-! ## Cache model (`st.cache_data(ttl=3600)`)

The decorator memoizes per argument tuple with a fixed time to live; the
model keeps a list of (key, value, creation time) entries and returns a
cached value without invoking the wrapped function (zero requests) while
the entry is fresh.  Only `get_github_monthly_commits` and
`get_daily_commit_dates` carry this decorator in `src/app.py`.
-/

/-- One cache entry of the `st.cache_data` store. -/
structure CEntry (α β : Type) where
  key : α
  val : β
  time : Nat

/-- Fresh-entry lookup of the cache store. -/
def cacheLookup {α β : Type} [DecidableEq α] (cache : List (CEntry α β)) (k : α) (now ttl : Nat) : Option β :=
  match cache.find? (fun e => decide (e.key = k) && decide (now < e.time + ttl)) with
  | some e => some e.val
  | none => none

/-- Model of a call through `st.cache_data(ttl=...)`: on a fresh hit the
cached value is returned with zero requests; otherwise the wrapped
function runs (producing a value and its request count) and the result is
stored.  Returns (value, new store, requests issued). -/
def cachedCall {α β : Type} [DecidableEq α] (f : α → β × Nat) (ttl : Nat)
    (cache : List (CEntry α β)) (now : Nat) (k : α) : β × List (CEntry α β) × Nat :=
  match cacheLookup cache k now ttl with
  | some v => (v, cache, 0)
  | none => ((f k).1, ⟨k, (f k).1, now⟩ :: cache, (f k).2)

/-- The decorated `get_daily_commit_dates`, keyed by (user, months). -/
def get_daily_commit_dates_cached (env : CommitsEnv) (cache : List (CEntry (String × Nat) (Except Unit (List String)))) (now : Nat) (k : String × Nat) :=
  cachedCall (fun _ => (get_daily_commit_dates_run env, daily_requests env)) 3600 cache now k

/-- The decorated `get_github_monthly_commits`, keyed by (user, months). -/
def get_github_monthly_commits_cached (env : CommitsEnv) (cache : List (CEntry (String × Nat) (Option (List (String × Nat))))) (now : Nat) (k : String × Nat) :=
  cachedCall (fun _ => (get_github_monthly_commits_run env, monthly_requests env)) 3600 cache now k

/-! ## Concrete inputs used by the witnesses and counterexamples -/

/-- A non-fork repository. -/
def repoR : Repo := ⟨"r", false, "2024-01-01T00:00:00Z"⟩

/-- A fork. -/
def repoF : Repo := ⟨"f", true, "2024-01-01T00:00:00Z"⟩

/-- A non-fork repository created in 2025. -/
def repoY : Repo := ⟨"y", false, "2025-03-03T00:00:00Z"⟩

/-- A full page of 100 non-fork repositories. -/
def page100 : List Repo := List.replicate 100 repoR

/-- A full page: 50 non-fork repositories and 50 forks. -/
def pageMixed : List Repo := List.replicate 50 repoR ++ List.replicate 50 repoF

/-- Oracle: the repository listing answers 500; commit requests would succeed. -/
def envC1 : CommitsEnv := ⟨.ok 500 [], fun _ => .ok 200 []⟩

/-- Oracle: listing succeeds, every commit request fails with 404. -/
def envW1 : CommitsEnv := ⟨.ok 200 [⟨"r1", false, "2025-01-01T00:00:00Z"⟩], fun _ => .ok 404 []⟩

/-- Today used in the streak and weekly examples. -/
def todayW2 : Date := ⟨2025, 3, 15⟩

/-- Today plus the prior four consecutive days, but not the sixth day back. -/
def datesW2 : List String :=
  ["2025-03-11", "2025-03-12", "2025-03-13", "2025-03-14", "2025-03-15"]

/-- A small date list with one duplicate and one junk entry. -/
def datesW10 : List String := ["2025-03-15", "2025-03-15", "x"]

/-- Request trace: a full first page, then a 500 mid-pagination. -/
def traceC3 (i : Nat) : Resp (List Repo) := if i = 0 then .ok 200 page100 else .ok 500 []

/-- Request trace: a full mixed first page, then a 403 mid-pagination. -/
def traceW3 (i : Nat) : Resp (List Repo) := if i = 0 then .ok 200 pageMixed else .ok 403 []

/-- Oracle: two repositories; the commit fetch of `a` succeeds, the one of
`b` raises a network-level exception. -/
def envC4 : CommitsEnv :=
  ⟨.ok 200 [⟨"a", false, ""⟩, ⟨"b", false, ""⟩],
    fun n => if n = "a" then .ok 200 [⟨"2025-01-05T10:00:00Z"⟩] else .exn⟩

/-- Oracle: three repositories; the commit fetch of `b` answers 500, the
other two succeed with one commit each. -/
def envW4 : CommitsEnv :=
  ⟨.ok 200 [⟨"a", false, ""⟩, ⟨"b", false, ""⟩, ⟨"c", false, ""⟩],
    fun n =>
      if n = "a" then .ok 200 [⟨"2025-01-05T10:00:00Z"⟩]
      else if n = "b" then .ok 500 []
      else .ok 200 [⟨"2025-01-20T10:00:00Z"⟩]⟩

/-- Request trace: a single short page, constant over time. -/
def traceC5 (_ : Nat) : Resp (List Repo) := .ok 200 [repoR]

/-- Oracle with a successful empty listing. -/
def envW5 : CommitsEnv := ⟨.ok 200 [], fun _ => .ok 200 []⟩

/-- Cache key (user, months) used in the caching examples. -/
def keyW5 : String × Nat := ("duckola", 6)

/-- Oracle: one repository with the three commits of the histogram example. -/
def envW6 : CommitsEnv :=
  ⟨.ok 200 [⟨"a", false, ""⟩],
    fun _ => .ok 200 [⟨"2025-01-05T12:00:00Z"⟩, ⟨"2025-01-20T12:00:00Z"⟩, ⟨"2025-02-01T12:00:00Z"⟩]⟩

/-- Oracle: one repository whose commit list is empty. -/
def envW7 : CommitsEnv := ⟨.ok 200 [⟨"a", false, ""⟩], fun _ => .ok 200 []⟩

/-- Dates used in the weekly-increase example: today, today minus 3 and
today minus 10 relative to `todayW2`. -/
def dlW8 : List Date := [⟨2025, 3, 15⟩, ⟨2025, 3, 12⟩, ⟨2025, 3, 5⟩]

/-- Request trace: a full page of repositories created in 2025, one more
such repository on the second page, then an empty page. -/
def traceC9 (i : Nat) : Resp (List Repo) :=
  if i = 0 then .ok 200 (List.replicate 100 repoY)
  else if i = 1 then .ok 200 [repoY]
  else .ok 200 []

/-- Request trace: a single short page with one 2025 repository and one
2024 repository. -/
def traceW9 (i : Nat) : Resp (List Repo) :=
  if i = 0 then .ok 200 [repoY, ⟨"z", false, "2024-12-31T00:00:00Z"⟩] else .ok 200 []

/-! ## Lemmas: digits and code-point order -/

theorem digitFin_lt : ∀ u v : Fin 10, u.val < v.val → Nat.digitChar u.val < Nat.digitChar v.val := by
  decide

theorem digitFin_inj : ∀ u v : Fin 10, Nat.digitChar u.val = Nat.digitChar v.val → u = v := by
  decide

theorem dchar_lt {u v : Nat} (hu : u < 10) (hv : v < 10) (h : u < v) :
    Nat.digitChar u < Nat.digitChar v :=
  digitFin_lt ⟨u, hu⟩ ⟨v, hv⟩ h

theorem dchar_inj {u v : Nat} (hu : u < 10) (hv : v < 10)
    (h : Nat.digitChar u = Nat.digitChar v) : u = v := by
  have := digitFin_inj ⟨u, hu⟩ ⟨v, hv⟩ h
  exact congrArg Fin.val this

theorem charListLe_refl (l : List Char) : charListLe l l = true := by
  induction l with
  | nil => rfl
  | cons c cs ih => simp [charListLe, lt_irrefl, ih]

/-- Pointwise lexicographic strict order on a list of character pairs:
some first differing pair is strictly increasing. -/
def charPairsLexLt : List (Char × Char) → Prop
  | [] => False
  | p :: ps => p.1 < p.2 ∨ (p.1 = p.2 ∧ charPairsLexLt ps)

theorem charListLe_of_pairs (ps : List (Char × Char)) (h : charPairsLexLt ps) :
    charListLe (ps.map Prod.fst) (ps.map Prod.snd) = true ∧
      charListLe (ps.map Prod.snd) (ps.map Prod.fst) = false := by
  induction ps with
  | nil => exact absurd h (by simp [charPairsLexLt])
  | cons p ps ih =>
    rcases h with hlt | ⟨heq, hrest⟩
    · constructor
      · simp [charListLe, hlt]
      · have hnot : ¬ p.2 < p.1 := lt_asymm hlt
        simp [charListLe, hnot, hlt]
    · have ihr := ih hrest
      constructor
      · simp [charListLe, heq, lt_irrefl, ihr.1]
      · simp [charListLe, heq, lt_irrefl, ihr.2]

theorem digits4_lt {x y : Nat} (h : x < y) (hy : y ≤ 9999) :
    x / 1000 % 10 < y / 1000 % 10 ∨
      (x / 1000 % 10 = y / 1000 % 10 ∧
        (x / 100 % 10 < y / 100 % 10 ∨
          (x / 100 % 10 = y / 100 % 10 ∧
            (x / 10 % 10 < y / 10 % 10 ∨
              (x / 10 % 10 = y / 10 % 10 ∧ x % 10 < y % 10))))) := by
  have dx : x = 1000 * (x / 1000 % 10) + 100 * (x / 100 % 10) + 10 * (x / 10 % 10) + x % 10 := by
    omega
  have dy : y = 1000 * (y / 1000 % 10) + 100 * (y / 100 % 10) + 10 * (y / 10 % 10) + y % 10 := by
    omega
  have bx1 : x / 1000 % 10 < 10 := Nat.mod_lt _ (by omega)
  have bx2 : x / 100 % 10 < 10 := Nat.mod_lt _ (by omega)
  have bx3 : x / 10 % 10 < 10 := Nat.mod_lt _ (by omega)
  have bx4 : x % 10 < 10 := Nat.mod_lt _ (by omega)
  have by1 : y / 1000 % 10 < 10 := Nat.mod_lt _ (by omega)
  have by2 : y / 100 % 10 < 10 := Nat.mod_lt _ (by omega)
  have by3 : y / 10 % 10 < 10 := Nat.mod_lt _ (by omega)
  have by4 : y % 10 < 10 := Nat.mod_lt _ (by omega)
  generalize x / 1000 % 10 = a1 at *
  generalize x / 100 % 10 = a2 at *
  generalize x / 10 % 10 = a3 at *
  generalize x % 10 = a4 at *
  generalize y / 1000 % 10 = b1 at *
  generalize y / 100 % 10 = b2 at *
  generalize y / 10 % 10 = b3 at *
  generalize y % 10 = b4 at *
  omega

theorem digits2_lt {x y : Nat} (h : x < y) (hy : y ≤ 99) :
    x / 10 % 10 < y / 10 % 10 ∨ (x / 10 % 10 = y / 10 % 10 ∧ x % 10 < y % 10) := by
  omega

theorem daysInMonth_le31 (y m : Nat) : daysInMonth y m ≤ 31 := by
  unfold daysInMonth
  split
  · split <;> omega
  · split <;> omega

theorem digits4_inj {x y : Nat} (hx : x ≤ 9999) (hy : y ≤ 9999)
    (e1 : x / 1000 % 10 = y / 1000 % 10) (e2 : x / 100 % 10 = y / 100 % 10)
    (e3 : x / 10 % 10 = y / 10 % 10) (e4 : x % 10 = y % 10) : x = y := by
  have dx : x = 1000 * (x / 1000 % 10) + 100 * (x / 100 % 10) + 10 * (x / 10 % 10) + x % 10 := by
    omega
  have dy : y = 1000 * (y / 1000 % 10) + 100 * (y / 100 % 10) + 10 * (y / 10 % 10) + y % 10 := by
    omega
  omega

theorem digits2_inj {x y : Nat} (hx : x ≤ 99) (hy : y ≤ 99)
    (e1 : x / 10 % 10 = y / 10 % 10) (e2 : x % 10 = y % 10) : x = y := by
  omega

theorem mod10_lt (n : Nat) : n % 10 < 10 := Nat.mod_lt _ (by omega)

theorem toIso_inj {a b : Date} (ha : a.valid) (hb : b.valid)
    (h : Date.toIso a = Date.toIso b) : a = b := by
  obtain ⟨ha1, ha2, ha3, ha4, ha5, ha6⟩ := ha
  obtain ⟨hb1, hb2, hb3, hb4, hb5, hb6⟩ := hb
  have had : a.d ≤ 31 := le_trans ha6 (daysInMonth_le31 _ _)
  have hbd : b.d ≤ 31 := le_trans hb6 (daysInMonth_le31 _ _)
  have hdata := congrArg String.data h
  simp only [Date.toIso, List.cons.injEq, and_true] at hdata
  obtain ⟨e1, e2, e3, e4, _, e5, e6, _, e7, e8⟩ := hdata
  have ey : a.y = b.y :=
    digits4_inj ha2 hb2 (dchar_inj (mod10_lt _) (mod10_lt _) e1)
      (dchar_inj (mod10_lt _) (mod10_lt _) e2) (dchar_inj (mod10_lt _) (mod10_lt _) e3)
      (dchar_inj (mod10_lt _) (mod10_lt _) e4)
  have em : a.m = b.m :=
    digits2_inj (by omega) (by omega) (dchar_inj (mod10_lt _) (mod10_lt _) e5)
      (dchar_inj (mod10_lt _) (mod10_lt _) e6)
  have ed : a.d = b.d :=
    digits2_inj (by omega) (by omega) (dchar_inj (mod10_lt _) (mod10_lt _) e7)
      (dchar_inj (mod10_lt _) (mod10_lt _) e8)
  exact Date.ext ey em ed

theorem toIso_lt_mono {a b : Date} (ha : a.valid) (hb : b.valid) (h : dateLt a b) :
    charListLe (Date.toIso a).data (Date.toIso b).data = true ∧
      charListLe (Date.toIso b).data (Date.toIso a).data = false := by
  obtain ⟨ha1, ha2, ha3, ha4, ha5, ha6⟩ := ha
  obtain ⟨hb1, hb2, hb3, hb4, hb5, hb6⟩ := hb
  have hbd : b.d ≤ 31 := le_trans hb6 (daysInMonth_le31 _ _)
  have key : charPairsLexLt
      [(Nat.digitChar (a.y / 1000 % 10), Nat.digitChar (b.y / 1000 % 10)),
       (Nat.digitChar (a.y / 100 % 10), Nat.digitChar (b.y / 100 % 10)),
       (Nat.digitChar (a.y / 10 % 10), Nat.digitChar (b.y / 10 % 10)),
       (Nat.digitChar (a.y % 10), Nat.digitChar (b.y % 10)),
       ('-', '-'),
       (Nat.digitChar (a.m / 10 % 10), Nat.digitChar (b.m / 10 % 10)),
       (Nat.digitChar (a.m % 10), Nat.digitChar (b.m % 10)),
       ('-', '-'),
       (Nat.digitChar (a.d / 10 % 10), Nat.digitChar (b.d / 10 % 10)),
       (Nat.digitChar (a.d % 10), Nat.digitChar (b.d % 10))] := by
    rcases h with hy | ⟨hy, hm | ⟨hm, hd⟩⟩
    · rcases digits4_lt hy hb2 with h1 | ⟨q1, h2 | ⟨q2, h3 | ⟨q3, h4⟩⟩⟩
      · exact Or.inl (dchar_lt (mod10_lt _) (mod10_lt _) h1)
      · exact Or.inr ⟨congrArg Nat.digitChar q1,
          Or.inl (dchar_lt (mod10_lt _) (mod10_lt _) h2)⟩
      · exact Or.inr ⟨congrArg Nat.digitChar q1, Or.inr ⟨congrArg Nat.digitChar q2,
          Or.inl (dchar_lt (mod10_lt _) (mod10_lt _) h3)⟩⟩
      · exact Or.inr ⟨congrArg Nat.digitChar q1, Or.inr ⟨congrArg Nat.digitChar q2,
          Or.inr ⟨congrArg Nat.digitChar q3,
            Or.inl (dchar_lt (mod10_lt _) (mod10_lt _) h4)⟩⟩⟩
    · have c1 := congrArg (fun t => Nat.digitChar (t / 1000 % 10)) hy
      have c2 := congrArg (fun t => Nat.digitChar (t / 100 % 10)) hy
      have c3 := congrArg (fun t => Nat.digitChar (t / 10 % 10)) hy
      have c4 := congrArg (fun t => Nat.digitChar (t % 10)) hy
      rcases digits2_lt hm (by omega) with h1 | ⟨q1, h2⟩
      · exact Or.inr ⟨c1, Or.inr ⟨c2, Or.inr ⟨c3, Or.inr ⟨c4, Or.inr ⟨rfl,
          Or.inl (dchar_lt (mod10_lt _) (mod10_lt _) h1)⟩⟩⟩⟩⟩
      · exact Or.inr ⟨c1, Or.inr ⟨c2, Or.inr ⟨c3, Or.inr ⟨c4, Or.inr ⟨rfl,
          Or.inr ⟨congrArg Nat.digitChar q1,
            Or.inl (dchar_lt (mod10_lt _) (mod10_lt _) h2)⟩⟩⟩⟩⟩⟩
    · have c1 := congrArg (fun t => Nat.digitChar (t / 1000 % 10)) hy
      have c2 := congrArg (fun t => Nat.digitChar (t / 100 % 10)) hy
      have c3 := congrArg (fun t => Nat.digitChar (t / 10 % 10)) hy
      have c4 := congrArg (fun t => Nat.digitChar (t % 10)) hy
      have c5 := congrArg (fun t => Nat.digitChar (t / 10 % 10)) hm
      have c6 := congrArg (fun t => Nat.digitChar (t % 10)) hm
      rcases digits2_lt hd (by omega) with h1 | ⟨q1, h2⟩
      · exact Or.inr ⟨c1, Or.inr ⟨c2, Or.inr ⟨c3, Or.inr ⟨c4, Or.inr ⟨rfl,
          Or.inr ⟨c5, Or.inr ⟨c6, Or.inr ⟨rfl,
            Or.inl (dchar_lt (mod10_lt _) (mod10_lt _) h1)⟩⟩⟩⟩⟩⟩⟩⟩
      · exact Or.inr ⟨c1, Or.inr ⟨c2, Or.inr ⟨c3, Or.inr ⟨c4, Or.inr ⟨rfl,
          Or.inr ⟨c5, Or.inr ⟨c6, Or.inr ⟨rfl,
            Or.inr ⟨congrArg Nat.digitChar q1,
              Or.inl (dchar_lt (mod10_lt _) (mod10_lt _) h2)⟩⟩⟩⟩⟩⟩⟩⟩⟩
  exact charListLe_of_pairs _ key

/-! ## Lemmas: the calendar order -/

theorem dateLt_irrefl (a : Date) : ¬ dateLt a a := by
  unfold dateLt; omega

theorem dateLt_trans {a b c : Date} (h1 : dateLt a b) (h2 : dateLt b c) : dateLt a c := by
  unfold dateLt at *; omega

theorem dateLt_trichotomy (a b : Date) : dateLt a b ∨ a = b ∨ dateLt b a := by
  rcases a with ⟨ya, ma, da⟩
  rcases b with ⟨yb, mb, db⟩
  simp only [dateLt, Date.mk.injEq]
  omega

theorem toIso_le_iff {a b : Date} (ha : a.valid) (hb : b.valid) :
    charListLe (Date.toIso a).data (Date.toIso b).data = true ↔ dateLe a b := by
  constructor
  · intro h
    rcases dateLt_trichotomy a b with hlt | heq | hgt
    · exact Or.inl hlt
    · exact Or.inr heq
    · have := (toIso_lt_mono hb ha hgt).2
      rw [h] at this
      exact absurd this (by simp)
  · intro h
    rcases h with hlt | heq
    · exact (toIso_lt_mono ha hb hlt).1
    · subst heq
      exact charListLe_refl _

theorem pred_lt {dt : Date} (h : 1 ≤ dt.y) : dateLt dt.pred dt := by
  unfold Date.pred dateLt
  split
  · dsimp only
    omega
  · split
    · dsimp only
      omega
    · dsimp only
      omega

theorem predIter_shift (day : Date) (i : Nat) :
    Date.predIter day (i + 1) = Date.predIter day.pred i := by
  induction i with
  | zero => rfl
  | succ n ih =>
    show (Date.predIter day (n + 1)).pred = (Date.predIter day.pred n).pred
    rw [ih]

theorem predIter_chain (today : Date) (N : Nat)
    (hv : ∀ i, i ≤ N → (Date.predIter today i).valid) :
    ∀ i j, i < j → j ≤ N → dateLt (Date.predIter today j) (Date.predIter today i) := by
  intro i j
  induction j with
  | zero => intro h _; exact absurd h (Nat.not_lt_zero i)
  | succ n ih =>
    intro hij hjN
    have hstep : dateLt (Date.predIter today (n + 1)) (Date.predIter today n) :=
      pred_lt (hv n (by omega)).1
    rcases Nat.lt_or_ge i n with hlt | hge
    · exact dateLt_trans hstep (ih hlt (by omega))
    · have : i = n := by omega
      subst this
      exact hstep

/-! ## Lemmas: the streak loop -/

theorem streakFuel_eval (dates : List String) :
    ∀ (n : Nat) (day : Date) (fuel : Nat),
      (∀ i, i < n → Date.toIso (Date.predIter day i) ∈ dates) →
      Date.toIso (Date.predIter day n) ∉ dates →
      n < fuel →
      streakFuel dates fuel day = n := by
  intro n
  induction n with
  | zero =>
    intro day fuel _ hout hfuel
    obtain ⟨f, rfl⟩ : ∃ f, fuel = f + 1 := ⟨fuel - 1, by omega⟩
    have hd : Date.toIso day ∉ dates := hout
    simp [streakFuel, hd]
  | succ n ih =>
    intro day fuel hin hout hfuel
    obtain ⟨f, rfl⟩ : ∃ f, fuel = f + 1 := ⟨fuel - 1, by omega⟩
    have h0 : Date.toIso day ∈ dates := hin 0 (by omega)
    have hrec : streakFuel dates f day.pred = n := by
      apply ih day.pred f
      · intro i hi
        have := hin (i + 1) (by omega)
        rwa [predIter_shift] at this
      · have := hout
        rwa [predIter_shift] at this
      · omega
    simp [streakFuel, h0, hrec]

theorem streakFuel_members (dates : List String) :
    ∀ (fuel : Nat) (day : Date) (i : Nat), i < streakFuel dates fuel day →
      Date.toIso (Date.predIter day i) ∈ dates := by
  intro fuel
  induction fuel with
  | zero =>
    intro day i h
    simp [streakFuel] at h
  | succ f ih =>
    intro day i h
    by_cases hmem : Date.toIso day ∈ dates
    · simp only [streakFuel, if_pos hmem] at h
      cases i with
      | zero => exact hmem
      | succ j =>
        have := ih day.pred j (by omega)
        rw [predIter_shift]
        exact this
    · simp [streakFuel, hmem] at h

theorem streakFuel_miss (dates : List String) :
    ∀ (fuel : Nat) (day : Date), streakFuel dates fuel day < fuel →
      Date.toIso (Date.predIter day (streakFuel dates fuel day)) ∉ dates := by
  intro fuel
  induction fuel with
  | zero =>
    intro day h
    omega
  | succ f ih =>
    intro day h
    by_cases hmem : Date.toIso day ∈ dates
    · have hrec : streakFuel dates (f + 1) day = streakFuel dates f day.pred + 1 := by
        simp [streakFuel, hmem]
      rw [hrec] at h ⊢
      rw [predIter_shift]
      exact ih day.pred (by omega)
    · have h0 : streakFuel dates (f + 1) day = 0 := by simp [streakFuel, hmem]
      rw [h0]
      exact hmem

theorem streakFuel_le_fuel (dates : List String) :
    ∀ (fuel : Nat) (day : Date), streakFuel dates fuel day ≤ fuel := by
  intro fuel
  induction fuel with
  | zero => intro day; simp [streakFuel]
  | succ f ih =>
    intro day
    by_cases hmem : Date.toIso day ∈ dates
    · simp only [streakFuel, if_pos hmem]
      have := ih day.pred
      omega
    · simp [streakFuel, hmem]

theorem orbit_nodup (today : Date) (n N : Nat) (hn : n ≤ N)
    (hv : ∀ i, i ≤ N → (Date.predIter today i).valid) :
    ((List.range n).map (fun i => Date.toIso (Date.predIter today i))).Nodup := by
  apply List.Nodup.map_on _ (List.nodup_range n)
  intro x hx y hy hxy
  simp only [List.mem_range] at hx hy
  by_contra hne
  rcases Nat.lt_or_ge x y with hlt | hge
  · have hchain := predIter_chain today N hv x y hlt (by omega)
    have heq := toIso_inj (hv x (by omega)) (hv y (by omega)) hxy
    rw [heq] at hchain
    exact dateLt_irrefl _ hchain
  · have hlt : y < x := by omega
    have hchain := predIter_chain today N hv y x hlt (by omega)
    have heq := toIso_inj (hv x (by omega)) (hv y (by omega)) hxy
    rw [heq] at hchain
    exact dateLt_irrefl _ hchain

theorem streak_nodup_bound (dates : List String) (today : Date) (n : Nat)
    (hv : ∀ i, i ≤ n → (Date.predIter today i).valid)
    (hin : ∀ i, i < n → Date.toIso (Date.predIter today i) ∈ dates) :
    n ≤ dates.length := by
  have hnd := orbit_nodup today n n (le_refl n) hv
  have hsub : ((List.range n).map (fun i => Date.toIso (Date.predIter today i))) ⊆ dates := by
    intro s hs
    simp only [List.mem_map, List.mem_range] at hs
    obtain ⟨i, hi, rfl⟩ := hs
    exact hin i hi
  have := (List.subperm_of_subset hnd hsub).length_le
  simpa using this

/-- C2: starting at today and walking backward, `compute_streak` returns
the length of the maximal run of consecutive days (today included) whose
ISO strings are members of `dates`, stopping at the first missing day. -/
theorem compute_streak_spec (dates : List String) (today : Date) (n : Nat)
    (hv : ∀ i, i ≤ n → (Date.predIter today i).valid)
    (hin : ∀ i, i < n → Date.toIso (Date.predIter today i) ∈ dates)
    (hout : Date.toIso (Date.predIter today n) ∉ dates) :
    compute_streak dates today = n := by
  have hb := streak_nodup_bound dates today n hv hin
  exact streakFuel_eval dates n today (dates.length + 1) hin hout (by omega)

/-- Witness for C2: with today = 2025-03-15 and the set containing today
and the prior four consecutive days but not 2025-03-10, the streak is
exactly 5; on the empty set it is 0. -/
theorem compute_streak_spec_witness :
    compute_streak datesW2 todayW2 = 5 ∧ compute_streak [] todayW2 = 0 :=
  ⟨compute_streak_spec datesW2 todayW2 5 (by decide) (by decide) (by decide),
   compute_streak_spec [] todayW2 0 (by decide) (by decide) (by decide)⟩

/-- C10: the backward-walking loop terminates: its fuelled unfolding is
independent of the fuel beyond the default bound, and the returned streak
never exceeds the number of distinct dates in the list (each counted day
consumes a distinct member). -/
theorem compute_streak_termination (dates : List String) (today : Date)
    (hv : ∀ i, i ≤ dates.length + 1 → (Date.predIter today i).valid) :
    (∀ fuel, dates.length + 1 ≤ fuel → streakFuel dates fuel today = compute_streak dates today)
      ∧ compute_streak dates today ≤ dates.dedup.length := by
  have hcs : compute_streak dates today = streakFuel dates (dates.length + 1) today := rfl
  have hDlen : dates.dedup.length ≤ dates.length := (List.dedup_sublist dates).length_le
  have hrle : compute_streak dates today ≤ dates.length + 1 :=
    streakFuel_le_fuel dates (dates.length + 1) today
  have hbound : compute_streak dates today ≤ dates.dedup.length := by
    by_contra hgt
    push_neg at hgt
    have hmemD : ∀ i, i < dates.dedup.length + 1 →
        Date.toIso (Date.predIter today i) ∈ dates := by
      intro i hi
      exact streakFuel_members dates (dates.length + 1) today i (by omega)
    have hnd := orbit_nodup today (dates.dedup.length + 1) (dates.length + 1) (by omega) hv
    have hsub : ((List.range (dates.dedup.length + 1)).map
        (fun i => Date.toIso (Date.predIter today i))) ⊆ dates.dedup := by
      intro s hs
      simp only [List.mem_map, List.mem_range] at hs
      obtain ⟨i, hi, rfl⟩ := hs
      exact List.mem_dedup.mpr (hmemD i hi)
    have hle := (List.subperm_of_subset hnd hsub).length_le
    simp only [List.length_map, List.length_range] at hle
    omega
  refine ⟨?_, hbound⟩
  intro fuel hf
  have hlt : compute_streak dates today < dates.length + 1 := by omega
  have hmiss := streakFuel_miss dates (dates.length + 1) today hlt
  have hmem : ∀ i, i < compute_streak dates today →
      Date.toIso (Date.predIter today i) ∈ dates := fun i hi =>
    streakFuel_members dates (dates.length + 1) today i hi
  exact streakFuel_eval dates (compute_streak dates today) today fuel hmem hmiss (by omega)

/-- Witness for C10: on a three-element list with one duplicate, the streak
computed with any larger fuel agrees with the default, and is bounded by
the two distinct entries. -/
theorem compute_streak_termination_witness :
    streakFuel datesW10 50 todayW2 = compute_streak datesW10 todayW2 ∧
      compute_streak datesW10 todayW2 ≤ 2 := by
  have h := compute_streak_termination datesW10 todayW2 (by decide)
  refine ⟨h.1 50 (by decide), le_trans h.2 (by decide)⟩

/-! ## Lemmas: weekly increase -/

/-- C8: on a list of rendered valid dates, `get_weekly_streak_increase`
counts exactly the entries whose date is on or after today minus 7 days
(the Python string comparison agrees with the calendar order). -/
theorem get_weekly_streak_increase_spec (dl : List Date) (today : Date)
    (hdl : ∀ d ∈ dl, d.valid) (hcut : (Date.predIter today 7).valid) :
    get_weekly_streak_increase (dl.map Date.toIso) today
      = dl.countP (fun d => decide (dateLe (Date.predIter today 7) d)) := by
  unfold get_weekly_streak_increase
  revert hdl
  induction dl with
  | nil => intro _; rfl
  | cons d rest ih =>
    intro hdl
    have hd : d.valid := hdl d (List.mem_cons_self d rest)
    have hrest : ∀ x ∈ rest, x.valid := fun x hx => hdl x (List.mem_cons_of_mem d hx)
    have ihr := ih hrest
    simp only [List.map_cons, List.filter_cons, List.countP_cons]
    by_cases hle : dateLe (Date.predIter today 7) d
    · have hb : charListLe (Date.toIso (Date.predIter today 7)).data (Date.toIso d).data = true :=
        (toIso_le_iff hcut hd).mpr hle
      simp [hb, hle, ihr]
    · have hb : charListLe (Date.toIso (Date.predIter today 7)).data (Date.toIso d).data = false := by
        cases hEq : charListLe (Date.toIso (Date.predIter today 7)).data (Date.toIso d).data
        · rfl
        · exact absurd ((toIso_le_iff hcut hd).mp hEq) hle
      simp [hb, hle, ihr]

/-- Witness for C8: on the rendered dates {today, today-3, today-10} with
today = 2025-03-15, the weekly increase is 2. -/
theorem get_weekly_streak_increase_spec_witness :
    get_weekly_streak_increase (dlW8.map Date.toIso) todayW2 = 2 := by
  have h := get_weekly_streak_increase_spec dlW8 todayW2 (by decide) (by decide)
  rw [h]
  decide

/-! ## Lemmas: the month-count dictionary -/

theorem valueSum_nil (m : String) : valueSum [] m = 0 := rfl

theorem valueSum_cons (k : String) (v : Nat) (rest : List (String × Nat)) (m : String) :
    valueSum ((k, v) :: rest) m = (if k = m then v else 0) + valueSum rest m := by
  unfold valueSum
  rw [List.filter_cons]
  by_cases h : k = m
  · simp [h]
  · simp [h]

theorem bump_valueSum (counts : List (String × Nat)) (k m : String) :
    valueSum (bump counts k) m = valueSum counts m + (if k = m then 1 else 0) := by
  induction counts with
  | nil =>
    show valueSum [(k, 1)] m = valueSum [] m + (if k = m then 1 else 0)
    rw [valueSum_cons, valueSum_nil]
    omega
  | cons e rest ih =>
    obtain ⟨ek, ev⟩ := e
    by_cases h : ek = k
    · have hred : bump ((ek, ev) :: rest) k = (ek, ev + 1) :: rest := by
        simp [bump, h]
      rw [hred, valueSum_cons, valueSum_cons]
      by_cases hm : ek = m
      · have hkm : k = m := by rw [← h, hm]
        simp only [if_pos hm, if_pos hkm]
        omega
      · have hkm : k ≠ m := fun hc => hm (h.trans hc)
        simp only [if_neg hm, if_neg hkm]
        omega
    · have hred : bump ((ek, ev) :: rest) k = (ek, ev) :: bump rest k := by
        simp [bump, h]
      rw [hred, valueSum_cons, valueSum_cons, ih]
      omega

theorem addCommits_valueSum (cs : List Commit) :
    ∀ (counts : List (String × Nat)) (m : String),
      valueSum (addCommits counts cs) m
        = valueSum counts m + cs.countP (fun c => decide (pyTake c.date 7 = m)) := by
  induction cs with
  | nil =>
    intro counts m
    simp [addCommits]
  | cons c rest ih =>
    intro counts m
    have h1 : addCommits counts (c :: rest) = addCommits (bump counts (pyTake c.date 7)) rest := rfl
    rw [h1, ih, bump_valueSum, List.countP_cons]
    by_cases h : pyTake c.date 7 = m
    · simp [h]
      omega
    · simp [h]

theorem bump_ne_nil (counts : List (String × Nat)) (k : String) : bump counts k ≠ [] := by
  cases counts with
  | nil => simp [bump]
  | cons e rest =>
    obtain ⟨ek, ev⟩ := e
    by_cases h : ek = k <;> simp [bump, h]

theorem addCommits_eq_nil (cs : List Commit) :
    ∀ counts, addCommits counts cs = [] ↔ (counts = [] ∧ cs = []) := by
  induction cs with
  | nil =>
    intro counts
    simp [addCommits]
  | cons c rest ih =>
    intro counts
    have h1 : addCommits counts (c :: rest) = addCommits (bump counts (pyTake c.date 7)) rest := rfl
    rw [h1, ih]
    simp [bump_ne_nil]

theorem bump_keys (P : String → Bool) (k : String) (hk : P k = true) :
    ∀ counts, (∀ kv ∈ counts, P kv.1 = true) → ∀ kv ∈ bump counts k, P kv.1 = true := by
  intro counts
  induction counts with
  | nil =>
    intro _ kv hkv
    simp only [bump, List.mem_singleton] at hkv
    rw [hkv]
    exact hk
  | cons e rest ih =>
    intro hP kv hkv
    obtain ⟨ek, ev⟩ := e
    by_cases h : ek = k
    · simp only [bump, if_pos h] at hkv
      rcases List.mem_cons.mp hkv with rfl | hkv2
      · exact hP (ek, ev) (by simp)
      · exact hP kv (by simp [hkv2])
    · simp only [bump, if_neg h] at hkv
      rcases List.mem_cons.mp hkv with rfl | hkv2
      · exact hP (ek, ev) (by simp)
      · exact ih (fun x hx => hP x (by simp [hx])) kv hkv2

theorem bump_pos (k : String) :
    ∀ counts, (∀ kv ∈ counts, 1 ≤ kv.2) → ∀ kv ∈ bump counts k, 1 ≤ kv.2 := by
  intro counts
  induction counts with
  | nil =>
    intro _ kv hkv
    simp only [bump, List.mem_singleton] at hkv
    rw [hkv]
  | cons e rest ih =>
    intro hP kv hkv
    obtain ⟨ek, ev⟩ := e
    by_cases h : ek = k
    · simp only [bump, if_pos h] at hkv
      rcases List.mem_cons.mp hkv with rfl | hkv2
      · omega
      · exact hP kv (by simp [hkv2])
    · simp only [bump, if_neg h] at hkv
      rcases List.mem_cons.mp hkv with rfl | hkv2
      · exact hP (ek, ev) (by simp)
      · exact ih (fun x hx => hP x (by simp [hx])) kv hkv2

theorem addCommits_keys (P : String → Bool) :
    ∀ (cs : List Commit) (counts : List (String × Nat)),
      (∀ c ∈ cs, P (pyTake c.date 7) = true) →
      (∀ kv ∈ counts, P kv.1 = true) →
      ∀ kv ∈ addCommits counts cs, P kv.1 = true := by
  intro cs
  induction cs with
  | nil =>
    intro counts _ hc kv hkv
    exact hc kv hkv
  | cons c rest ih =>
    intro counts hcs hcounts kv hkv
    have h1 : addCommits counts (c :: rest) = addCommits (bump counts (pyTake c.date 7)) rest := rfl
    rw [h1] at hkv
    exact ih (bump counts (pyTake c.date 7)) (fun x hx => hcs x (by simp [hx]))
      (bump_keys P (pyTake c.date 7) (hcs c (by simp)) counts hcounts) kv hkv

theorem addCommits_pos :
    ∀ (cs : List Commit) (counts : List (String × Nat)),
      (∀ kv ∈ counts, 1 ≤ kv.2) → ∀ kv ∈ addCommits counts cs, 1 ≤ kv.2 := by
  intro cs
  induction cs with
  | nil =>
    intro counts hc kv hkv
    exact hc kv hkv
  | cons c rest ih =>
    intro counts hcounts kv hkv
    have h1 : addCommits counts (c :: rest) = addCommits (bump counts (pyTake c.date 7)) rest := rfl
    rw [h1] at hkv
    exact ih (bump counts (pyTake c.date 7))
      (bump_pos (pyTake c.date 7) counts hcounts) kv hkv

theorem addCommits_append (counts : List (String × Nat)) (cs1 cs2 : List Commit) :
    addCommits counts (cs1 ++ cs2) = addCommits (addCommits counts cs1) cs2 :=
  List.foldl_append _ _ _ _

/-! ## Lemmas: sorting permutations -/

theorem insertStr_perm (s : String) (l : List String) : (insertStr s l).Perm (s :: l) := by
  induction l with
  | nil => exact List.Perm.refl _
  | cons t rest ih =>
    by_cases h : charListLe s.data t.data
    · simp only [insertStr, if_pos h]
      exact List.Perm.refl _
    · simp only [insertStr, if_neg h]
      exact (List.Perm.cons t ih).trans (List.Perm.swap s t rest)

theorem sortStr_perm (l : List String) : (sortStr l).Perm l := by
  induction l with
  | nil => exact List.Perm.refl _
  | cons s rest ih =>
    exact (insertStr_perm s (sortStr rest)).trans (List.Perm.cons s ih)

theorem insertByKey_perm (kv : String × Nat) (l : List (String × Nat)) :
    (insertByKey kv l).Perm (kv :: l) := by
  induction l with
  | nil => exact List.Perm.refl _
  | cons e rest ih =>
    by_cases h : charListLe kv.1.data e.1.data
    · simp only [insertByKey, if_pos h]
      exact List.Perm.refl _
    · simp only [insertByKey, if_neg h]
      exact (List.Perm.cons e ih).trans (List.Perm.swap kv e rest)

theorem sortByKey_perm (l : List (String × Nat)) : (sortByKey l).Perm l := by
  induction l with
  | nil => exact List.Perm.refl _
  | cons e rest ih =>
    exact (insertByKey_perm e (sortByKey rest)).trans (List.Perm.cons e ih)

theorem valueSum_perm {l1 l2 : List (String × Nat)} (h : l1.Perm l2) (m : String) :
    valueSum l1 m = valueSum l2 m := by
  unfold valueSum
  exact List.Perm.sum_eq ((h.filter _).map _)

/-! ## Lemmas: the per-repository histogram loop -/

theorem histLoop_eq (f : String → Resp (List Commit)) :
    ∀ (repos : List Repo), (∀ r ∈ repos, f r.name ≠ .exn) →
      ∀ counts, histLoop f repos counts = some (addCommits counts (successfulCommits repos f)) := by
  intro repos
  induction repos with
  | nil =>
    intro _ counts
    rfl
  | cons r rest ih =>
    intro hne counts
    cases hf : f r.name with
    | exn => exact absurd hf (hne r (by simp))
    | ok s cs =>
      have e2 : successfulCommits (r :: rest) f
          = (if s = 200 then cs else []) ++ successfulCommits rest f := by
        simp only [successfulCommits, List.foldr_cons, hf]
        by_cases hs : s = 200 <;> simp [hs]
      by_cases hs : s = 200
      · have e1 : histLoop f (r :: rest) counts = histLoop f rest (addCommits counts cs) := by
          simp [histLoop, hf, hs]
        rw [e1, e2, ih (fun x hx => hne x (by simp [hx]))]
        rw [if_pos hs, addCommits_append]
      · have e1 : histLoop f (r :: rest) counts = histLoop f rest counts := by
          simp [histLoop, hf, hs]
        rw [e1, e2, ih (fun x hx => hne x (by simp [hx]))]
        rw [if_neg hs]
        rfl

theorem successfulCommits_flatten (f : String → Resp (List Commit)) :
    ∀ repos : List Repo,
      successfulCommits repos f
        = (repos.map (fun r =>
            match f r.name with
            | .exn => []
            | .ok s cs => if s = 200 then cs else [])).flatten := by
  intro repos
  induction repos with
  | nil => rfl
  | cons r rest ih =>
    cases hf : f r.name with
    | exn =>
      simp only [successfulCommits, List.foldr_cons, hf, List.map_cons, List.flatten_cons]
      simpa [successfulCommits] using ih
    | ok s cs =>
      simp only [successfulCommits, List.foldr_cons, hf, List.map_cons, List.flatten_cons]
      by_cases hs : s = 200
      · simp only [if_pos hs]
        simpa [successfulCommits] using congrArg (cs ++ ·) ih
      · simp only [if_neg hs, List.nil_append]
        simpa [successfulCommits] using ih

theorem countP_flatten (p : Commit → Bool) :
    ∀ L : List (List Commit), (L.flatten).countP p = (L.map (List.countP p)).sum := by
  intro L
  induction L with
  | nil => rfl
  | cons cs rest ih =>
    simp [List.countP_append, ih]

/-- Characterization of the monthly run on an oracle whose listing succeeds
and whose commit fetches raise no network exception and yield well-formed
months: it is `none` exactly on an empty count, otherwise the sorted
dictionary. -/
theorem monthly_run_eq (env : CommitsEnv) (s : Nat) (repos : List Repo)
    (h1 : env.repos = .ok s repos) (h2 : s < 400)
    (h3 : ∀ r ∈ repos, env.commits r.name ≠ .exn)
    (h4 : ∀ c ∈ successfulCommits repos env.commits, isYYYYMM (pyTake c.date 7) = true) :
    get_github_monthly_commits_run env
      = if successfulCommits repos env.commits = [] then none
        else some (sortByKey (addCommits [] (successfulCommits repos env.commits))) := by
  unfold get_github_monthly_commits_run
  rw [h1]
  have hnot : ¬ 400 ≤ s := by omega
  dsimp only
  rw [if_neg hnot, histLoop_eq env.commits repos h3 []]
  by_cases hsc : successfulCommits repos env.commits = []
  · rw [hsc]
    simp [addCommits]
  · have hne : addCommits [] (successfulCommits repos env.commits) ≠ [] := by
      intro hc
      exact hsc ((addCommits_eq_nil _ _).mp hc).2
    have hall : (addCommits [] (successfulCommits repos env.commits)).all
        (fun kv => isYYYYMM kv.1) = true := by
      rw [List.all_eq_true]
      intro kv hkv
      exact addCommits_keys (fun k => isYYYYMM k) _ _ h4 (by simp) kv hkv
    simp [hsc, hne, hall]

/-- C6: the monthly histogram maps each month to the number of fetched
commits whose authored date, truncated to its month (`commit_date[:7]`),
equals that month, taken over all repositories whose commit fetch
succeeded with status 200. -/
theorem monthly_histogram_counts (env : CommitsEnv) (s : Nat) (repos : List Repo)
    (h1 : env.repos = .ok s repos) (h2 : s < 400)
    (h3 : ∀ r ∈ repos, env.commits r.name ≠ .exn)
    (h4 : ∀ c ∈ successfulCommits repos env.commits, isYYYYMM (pyTake c.date 7) = true)
    (h5 : successfulCommits repos env.commits ≠ []) :
    ∃ df, get_github_monthly_commits_run env = some df ∧
      ∀ m, valueSum df m
        = (successfulCommits repos env.commits).countP (fun c => decide (pyTake c.date 7 = m)) := by
  refine ⟨sortByKey (addCommits [] (successfulCommits repos env.commits)), ?_, ?_⟩
  · rw [monthly_run_eq env s repos h1 h2 h3 h4, if_neg h5]
  · intro m
    rw [valueSum_perm (sortByKey_perm _) m, addCommits_valueSum, valueSum_nil]
    omega

/-- Witness for C6: commits on 2025-01-05, 2025-01-20 and 2025-02-01 yield
a histogram with exactly 2 commits in 2025-01 and 1 in 2025-02. -/
theorem monthly_histogram_counts_witness :
    ∃ df, get_github_monthly_commits_run envW6 = some df ∧
      valueSum df "2025-01" = 2 ∧ valueSum df "2025-02" = 1 ∧ valueSum df "2025-03" = 0 := by
  obtain ⟨df, hdf, hv⟩ := monthly_histogram_counts envW6 200 [⟨"a", false, ""⟩]
    rfl (by omega) (by decide) (by decide) (by decide)
  refine ⟨df, hdf, ?_, ?_, ?_⟩
  · rw [hv]; decide
  · rw [hv]; decide
  · rw [hv]; decide

/-- C7: when the aggregation finds no commits at all, the monthly
histogram is the absent result `none`; and a present histogram is never a
zero-count series: it is nonempty and every month it mentions has a
positive count. -/
theorem monthly_histogram_absent (env : CommitsEnv) (s : Nat) (repos : List Repo)
    (h1 : env.repos = .ok s repos) (h2 : s < 400)
    (h3 : ∀ r ∈ repos, env.commits r.name ≠ .exn)
    (h4 : ∀ c ∈ successfulCommits repos env.commits, isYYYYMM (pyTake c.date 7) = true) :
    (get_github_monthly_commits_run env = none ↔ successfulCommits repos env.commits = [])
      ∧ ∀ df, get_github_monthly_commits_run env = some df →
          df ≠ [] ∧ ∀ kv ∈ df, 1 ≤ kv.2 := by
  have hchar := monthly_run_eq env s repos h1 h2 h3 h4
  constructor
  · constructor
    · intro hn
      by_contra hsc
      rw [hchar, if_neg hsc] at hn
      simp at hn
    · intro hsc
      rw [hchar, if_pos hsc]
  · intro df hdf
    by_cases hsc : successfulCommits repos env.commits = []
    · rw [hchar, if_pos hsc] at hdf
      simp at hdf
    · rw [hchar, if_neg hsc] at hdf
      have hdf2 : sortByKey (addCommits [] (successfulCommits repos env.commits)) = df :=
        Option.some.inj hdf
      have hperm := sortByKey_perm (addCommits [] (successfulCommits repos env.commits))
      rw [hdf2] at hperm
      constructor
      · intro hnil
        rw [hnil] at hperm
        have : addCommits [] (successfulCommits repos env.commits) = [] :=
          List.Perm.nil_eq hperm ▸ rfl
        exact hsc ((addCommits_eq_nil _ _).mp this).2
      · intro kv hkv
        have hmem : kv ∈ addCommits [] (successfulCommits repos env.commits) :=
          hperm.mem_iff.mp hkv
        exact addCommits_pos _ [] (by simp) kv hmem

/-- Witness for C7: one repository with an empty commit list yields `none`. -/
theorem monthly_histogram_absent_witness :
    get_github_monthly_commits_run envW7 = none :=
  (monthly_histogram_absent envW7 200 [⟨"a", false, ""⟩]
    rfl (by omega) (by decide) (by decide)).1.mpr (by decide)

/-! ## Lemmas: the daily commit-date collection -/

theorem foldl_daily_mem (env : CommitsEnv) :
    ∀ (repos : List Repo) (init : List String) (x : String), x ∈ init →
      x ∈ repos.foldl (fun acc r =>
        match github_request (env.commits r.name) with
        | .error _ => acc
        | .ok cs => acc ++ cs.map (fun c => pyTake c.date 10)) init := by
  intro repos
  induction repos with
  | nil => intro init x hx; exact hx
  | cons r rest ih =>
    intro init x hx
    simp only [List.foldl_cons]
    cases github_request (env.commits r.name) with
    | error e => exact ih init x hx
    | ok cs => exact ih _ x (by simp [hx])

theorem foldl_daily_mem_of_repo (env : CommitsEnv) :
    ∀ (repos : List Repo) (init : List String) (r : Repo), r ∈ repos →
      ∀ cs, github_request (env.commits r.name) = .ok cs →
        ∀ c ∈ cs, pyTake c.date 10 ∈ repos.foldl (fun acc r2 =>
          match github_request (env.commits r2.name) with
          | .error _ => acc
          | .ok cs2 => acc ++ cs2.map (fun c2 => pyTake c2.date 10)) init := by
  intro repos
  induction repos with
  | nil => intro init r hr; exact absurd hr (by simp)
  | cons r0 rest ih =>
    intro init r hr cs hcs c hc
    simp only [List.foldl_cons]
    rcases List.mem_cons.mp hr with rfl | hr2
    · rw [hcs]
      apply foldl_daily_mem
      simp only [List.mem_append, List.mem_map]
      exact Or.inr ⟨c, hc, rfl⟩
    · cases github_request (env.commits r0.name) with
      | error e => exact ih init r hr2 cs hcs c hc
      | ok cs0 => exact ih _ r hr2 cs hcs c hc

/-- C4 (amended): a failing per-repository commit fetch never diminishes
the other repositories.  For the commit-date set this holds for every
kind of failure: the dates of every repository whose fetch succeeded are
all present.  For the monthly histogram it holds for HTTP error statuses
(network-level exceptions instead abort the whole histogram, see the
counterexample): each successfully fetched repository contributes all of
its commits to the month counts. -/
theorem per_repo_failure_isolation :
    (∀ (env : CommitsEnv) (s : Nat) (repos : List Repo), env.repos = .ok s repos → s < 400 →
      ∃ l, get_daily_commit_dates_run env = .ok l ∧
        ∀ r ∈ repos, ∀ s2 cs, env.commits r.name = .ok s2 cs → s2 < 400 →
          ∀ c ∈ cs, pyTake c.date 10 ∈ l)
    ∧ (∀ (env : CommitsEnv) (s : Nat) (repos : List Repo), env.repos = .ok s repos → s < 400 →
        (∀ r ∈ repos, env.commits r.name ≠ .exn) →
        (∀ c ∈ successfulCommits repos env.commits, isYYYYMM (pyTake c.date 7) = true) →
        successfulCommits repos env.commits ≠ [] →
        ∃ df, get_github_monthly_commits_run env = some df ∧
          ∀ r ∈ repos, ∀ cs, env.commits r.name = .ok 200 cs →
            ∀ m, cs.countP (fun c => decide (pyTake c.date 7 = m)) ≤ valueSum df m) := by
  constructor
  · intro env s repos h1 h2
    have hreq : github_request env.repos = .ok repos := by
      have hn : ¬ 400 ≤ s := by omega
      unfold github_request
      rw [h1]
      simp [hn]
    refine ⟨sortStr ((repos.foldl (fun acc r =>
        match github_request (env.commits r.name) with
        | .error _ => acc
        | .ok cs => acc ++ cs.map (fun c => pyTake c.date 10)) [])).dedup, ?_, ?_⟩
    · unfold get_daily_commit_dates_run
      rw [hreq]
    · intro r hr s2 cs hcs hs2 c hc
      have hreq2 : github_request (env.commits r.name) = .ok cs := by
        have hn : ¬ 400 ≤ s2 := by omega
        unfold github_request
        rw [hcs]
        simp [hn]
      apply (sortStr_perm _).mem_iff.mpr
      apply List.mem_dedup.mpr
      exact foldl_daily_mem_of_repo env repos [] r hr cs hreq2 c hc
  · intro env s repos h1 h2 h3 h4 h5
    refine ⟨sortByKey (addCommits [] (successfulCommits repos env.commits)), ?_, ?_⟩
    · rw [monthly_run_eq env s repos h1 h2 h3 h4, if_neg h5]
    · intro r hr cs hcs m
      rw [valueSum_perm (sortByKey_perm _) m, addCommits_valueSum, valueSum_nil]
      rw [successfulCommits_flatten, countP_flatten]
      have hmem : cs.countP (fun c => decide (pyTake c.date 7 = m))
          ∈ (repos.map (fun r2 =>
              match env.commits r2.name with
              | .exn => []
              | .ok s2 cs2 => if s2 = 200 then cs2 else [])).map
            (List.countP (fun c => decide (pyTake c.date 7 = m))) := by
        rw [List.map_map]
        apply List.mem_map.mpr
        refine ⟨r, hr, ?_⟩
        simp [hcs]
      have := List.single_le_sum (fun x _ => Nat.zero_le x) _ hmem
      omega

/-- Counterexample for C4: with two repositories where the commit fetch of
the first succeeds (one commit in 2025-01) and the one of the second
raises a network-level exception, the monthly histogram is `None`:
the successful repository is not reflected at all. -/
theorem monthly_netfail_loses_other_repos :
    get_github_monthly_commits_run envC4 = none ∧
      successfulCommits [⟨"a", false, ""⟩, ⟨"b", false, ""⟩] envC4.commits ≠ [] := by
  constructor
  · rfl
  · decide

/-- Witness for C4: with three repositories where the middle fetch fails
with a 500, both the commit-date set and the histogram keep everything
from the two successful repositories. -/
theorem per_repo_failure_isolation_witness :
    (∃ l, get_daily_commit_dates_run envW4 = .ok l ∧ "2025-01-05" ∈ l ∧ "2025-01-20" ∈ l)
      ∧ ∃ df, get_github_monthly_commits_run envW4 = some df ∧ 1 ≤ valueSum df "2025-01" := by
  constructor
  · obtain ⟨l, hl, hmem⟩ := per_repo_failure_isolation.1 envW4 200
      [⟨"a", false, ""⟩, ⟨"b", false, ""⟩, ⟨"c", false, ""⟩] rfl (by omega)
    refine ⟨l, hl, ?_, ?_⟩
    · have h := hmem ⟨"a", false, ""⟩ (by decide) 200 [⟨"2025-01-05T10:00:00Z"⟩] rfl
        (by omega) ⟨"2025-01-05T10:00:00Z"⟩ (by decide)
      have he : pyTake (Commit.mk "2025-01-05T10:00:00Z").date 10 = "2025-01-05" := by decide
      rwa [he] at h
    · have h := hmem ⟨"c", false, ""⟩ (by decide) 200 [⟨"2025-01-20T10:00:00Z"⟩] rfl
        (by omega) ⟨"2025-01-20T10:00:00Z"⟩ (by decide)
      have he : pyTake (Commit.mk "2025-01-20T10:00:00Z").date 10 = "2025-01-20" := by decide
      rwa [he] at h
  · obtain ⟨df, hdf, hcount⟩ := per_repo_failure_isolation.2 envW4 200
      [⟨"a", false, ""⟩, ⟨"b", false, ""⟩, ⟨"c", false, ""⟩] rfl (by omega)
      (by decide) (by decide) (by decide)
    refine ⟨df, hdf, ?_⟩
    have h := hcount ⟨"a", false, ""⟩ (by decide) [⟨"2025-01-05T10:00:00Z"⟩] rfl "2025-01"
    have he : ([⟨"2025-01-05T10:00:00Z"⟩] : List Commit).countP
        (fun c => decide (pyTake c.date 7 = "2025-01")) = 1 := by decide
    rwa [he] at h

/-! ## Lemmas: error boundaries -/

theorem repo_count_loop_no_exn (trace : Nat → Resp (List Repo))
    (hx : ∀ i, trace i ≠ .exn) :
    ∀ (fuel idx : Nat) (acc : List Repo),
      ∃ rs, (get_repo_count_loop trace fuel idx acc).1 = .ok rs := by
  intro fuel
  induction fuel with
  | zero => intro idx acc; exact ⟨acc, rfl⟩
  | succ f ih =>
    intro idx acc
    cases ht : trace idx with
    | exn => exact absurd ht (hx idx)
    | ok status data =>
      simp only [get_repo_count_loop, ht]
      by_cases h1 : status ≠ 200
      · simp only [if_pos h1]
        exact ⟨acc, rfl⟩
      · simp only [if_neg h1]
        by_cases h2 : data = []
        · simp only [if_pos h2]
          exact ⟨acc, rfl⟩
        · simp only [if_neg h2]
          by_cases h3 : data.length < 100
          · simp only [if_pos h3]
            exact ⟨acc ++ data, rfl⟩
          · simp only [if_neg h3]
            exact ih (idx + 1) (acc ++ data)

/-- C1 (amended): error handling at the aggregator boundary, as the code
implements it.  If the repository listing succeeds, `get_daily_commit_dates`
never lets a per-repository commit failure escape; but a failing listing
(network-level or status >= 400) propagates out of it as an exception.
`get_repo_count` never raises as long as no network-level exception
occurs, and `get_repos_created_this_year` additionally maps every non-200
response to the sentinel count 0. -/
theorem aggregator_error_boundaries :
    (∀ (env : CommitsEnv) (s : Nat) (repos : List Repo), env.repos = .ok s repos → s < 400 →
      ∃ l, get_daily_commit_dates_run env = .ok l)
    ∧ (∀ env : CommitsEnv,
        (env.repos = .exn ∨ ∃ s repos, env.repos = .ok s repos ∧ 400 ≤ s) →
        get_daily_commit_dates_run env = .error ())
    ∧ (∀ (trace : Nat → Resp (List Repo)) (fuel : Nat), (∀ i, trace i ≠ .exn) →
        ∃ n, (get_repo_count_run trace fuel).1 = .ok n)
    ∧ (∀ (resp : Resp (List Repo)) (year : Nat), resp ≠ .exn →
        (∃ n, get_repos_created_this_year resp year = .ok n)
          ∧ ∀ s body, resp = .ok s body → s ≠ 200 →
              get_repos_created_this_year resp year = .ok 0) := by
  refine ⟨?_, ?_, ?_, ?_⟩
  · intro env s repos h1 h2
    have hn : ¬ 400 ≤ s := by omega
    have hreq : github_request env.repos = .ok repos := by
      unfold github_request
      rw [h1]
      simp [hn]
    refine ⟨sortStr ((repos.foldl (fun acc r =>
        match github_request (env.commits r.name) with
        | .error _ => acc
        | .ok cs => acc ++ cs.map (fun c => pyTake c.date 10)) [])).dedup, ?_⟩
    unfold get_daily_commit_dates_run
    rw [hreq]
  · intro env h
    have hreq : github_request env.repos = .error () := by
      unfold github_request
      rcases h with h | ⟨s, repos, h, hs⟩
      · rw [h]
      · rw [h]
        simp [hs]
    unfold get_daily_commit_dates_run
    rw [hreq]
  · intro trace fuel hx
    obtain ⟨rs, hrs⟩ := repo_count_loop_no_exn trace hx fuel 0 []
    rcases hl : get_repo_count_loop trace fuel 0 [] with ⟨res, cnt⟩
    rw [hl] at hrs
    dsimp only at hrs
    refine ⟨(rs.filter (fun r => !r.fork)).length, ?_⟩
    unfold get_repo_count_run
    rw [hl, hrs]
  · intro resp year hne
    cases resp with
    | exn => exact absurd rfl hne
    | ok s body =>
      by_cases hs : s ≠ 200
      · constructor
        · exact ⟨0, by simp [get_repos_created_this_year, hs]⟩
        · intro s2 body2 h hs2
          simp [get_repos_created_this_year, hs]
      · constructor
        · refine ⟨body.countP (fun r => (yearString year).data.isPrefixOf r.created_at.data), ?_⟩
          simp [get_repos_created_this_year, hs]
        · intro s2 body2 h hs2
          injection h with hq1 hq2
          exact absurd (by omega) hs2

/-- Counterexample for C1: a 500 response to the repository listing inside
`get_daily_commit_dates` escapes as an exception to the caller instead of
producing an empty-list sentinel. -/
theorem daily_listing_failure_escapes :
    get_daily_commit_dates_run envC1 = .error () := rfl

/-- Witness for C1: concrete instantiations of all four boundary facts. -/
theorem aggregator_error_boundaries_witness :
    (∃ l, get_daily_commit_dates_run envW1 = .ok l)
      ∧ get_daily_commit_dates_run ⟨.exn, fun _ => .ok 200 []⟩ = .error ()
      ∧ (∃ n, (get_repo_count_run (fun _ => .ok 200 []) 5).1 = .ok n)
      ∧ get_repos_created_this_year (.ok 404 []) 2025 = .ok 0 := by
  have h := aggregator_error_boundaries
  refine ⟨?_, ?_, ?_, ?_⟩
  · exact h.1 envW1 200 [⟨"r1", false, "2025-01-01T00:00:00Z"⟩] rfl (by omega)
  · exact h.2.1 ⟨.exn, fun _ => .ok 200 []⟩ (Or.inl rfl)
  · exact h.2.2.1 (fun _ => .ok 200 []) 5 (fun i => by simp)
  · exact (h.2.2.2 (.ok 404 []) 2025 (by simp)).2 404 [] rfl (by omega)

/-! ## Lemmas: pagination -/

theorem repo_count_loop_pages (trace : Nat → Resp (List Repo)) (pages : Nat → List Repo)
    (s : Nat) (body : List Repo) :
    ∀ (k fuel idx : Nat) (acc : List Repo),
      (∀ i, i < k → trace (idx + i) = .ok 200 (pages (idx + i)) ∧ (pages (idx + i)).length = 100) →
      trace (idx + k) = .ok s body → s ≠ 200 → k < fuel →
      get_repo_count_loop trace fuel idx acc
        = (.ok (acc ++ ((List.range k).map (fun i => pages (idx + i))).flatten), idx + k + 1) := by
  intro k
  induction k with
  | zero =>
    intro fuel idx acc hpages hfail hs hfuel
    obtain ⟨f, rfl⟩ : ∃ f, fuel = f + 1 := ⟨fuel - 1, by omega⟩
    rw [Nat.add_zero] at hfail
    simp only [get_repo_count_loop, hfail, if_pos hs]
    simp
  | succ k ih =>
    intro fuel idx acc hpages hfail hs hfuel
    obtain ⟨f, rfl⟩ : ∃ f, fuel = f + 1 := ⟨fuel - 1, by omega⟩
    have h0 := hpages 0 (by omega)
    rw [Nat.add_zero] at h0
    have hne : ¬ ((200 : Nat) ≠ 200) := by omega
    have hnil : pages idx ≠ [] := by
      intro hc
      rw [hc] at h0
      simp at h0
    have hlen : ¬ (pages idx).length < 100 := by
      rw [h0.2]
      omega
    simp only [get_repo_count_loop, h0.1, if_neg hne, if_neg hnil, if_neg hlen]
    have ihr := ih f (idx + 1) (acc ++ pages idx)
      (fun i hi => by
        have := hpages (i + 1) (by omega)
        rwa [show idx + (i + 1) = idx + 1 + i by omega] at this)
      (by rwa [show idx + (k + 1) = idx + 1 + k by omega] at hfail)
      hs (by omega)
    rw [ihr]
    have hfun : ((List.range k).map (fun i => pages (idx + 1 + i)))
        = ((List.range k).map ((fun i => pages (idx + i)) ∘ Nat.succ)) := by
      apply List.map_congr_left
      intro a _
      show pages (idx + 1 + a) = pages (idx + (a + 1))
      congr 1
      omega
    have hL : (acc ++ pages idx) ++ ((List.range k).map (fun i => pages (idx + 1 + i))).flatten
        = acc ++ ((List.range (k + 1)).map (fun i => pages (idx + i))).flatten := by
      rw [List.range_succ_eq_map, List.map_cons, List.map_map, List.flatten_cons,
        List.append_assoc, hfun]
      rw [show idx + 0 = idx from rfl]
    rw [hL]
    have hn : idx + 1 + k + 1 = idx + (k + 1) + 1 := by omega
    rw [hn]

/-- C3 (amended): the pagination loop of `get_repo_count` stops when a page
has fewer than 100 entries; on a non-2xx response mid-pagination it stops
and returns the non-fork count over the pages already fetched — partial
results are kept, not discarded.  With `k = 0` (first page failing) this
specializes to the empty listing and count 0. -/
theorem get_repo_count_partial_kept (trace : Nat → Resp (List Repo)) (pages : Nat → List Repo)
    (k fuel s : Nat) (body : List Repo)
    (hpages : ∀ i, i < k → trace i = .ok 200 (pages i) ∧ (pages i).length = 100)
    (hfail : trace k = .ok s body) (hs : s ≠ 200) (hfuel : k < fuel) :
    get_repo_count_run trace fuel
      = (.ok ((((List.range k).map pages).flatten).filter (fun r => !r.fork)).length, k + 1) := by
  have hloop := repo_count_loop_pages trace pages s body k fuel 0 []
    (fun i hi => by simpa using hpages i hi)
    (by simpa using hfail) hs hfuel
  unfold get_repo_count_run
  rw [hloop]
  have hmap : (List.range k).map (fun i => pages (0 + i)) = (List.range k).map pages :=
    List.map_congr_left (fun a _ => by rw [Nat.zero_add])
  rw [hmap]
  simp

/-- Counterexample for C3: a full first page of 100 non-fork repositories
followed by a 500 yields the count 100 from the partial results, not the
empty listing the claim requires. -/
theorem repo_count_mid_pagination_keeps_prior_pages :
    (get_repo_count_run traceC3 5).1 = .ok 100 ∧ (get_repo_count_run traceC3 5).1 ≠ .ok 0 := by
  constructor
  · rfl
  · intro hc
    have h100 : (get_repo_count_run traceC3 5).1 = .ok 100 := rfl
    rw [h100] at hc
    simp at hc

/-- Witness for C3: one full mixed page (50 non-forks, 50 forks) and then a
403 give the partial non-fork count 50 after two requests. -/
theorem get_repo_count_partial_kept_witness :
    get_repo_count_run traceW3 5 = (.ok 50, 2) := by
  have h := get_repo_count_partial_kept traceW3 (fun _ => pageMixed) 1 5 403 []
    (by decide) (by decide) (by omega) (by omega)
  rw [h]
  rfl

/-! ## Lemmas: caching and request counts -/

theorem cachedCall_second_hit {α β : Type} [DecidableEq α] (f : α → β × Nat)
    (ttl now1 now2 : Nat) (k : α) (hlt : now2 < now1 + ttl) :
    cachedCall f ttl [] now1 k = ((f k).1, [⟨k, (f k).1, now1⟩], (f k).2)
      ∧ cachedCall f ttl [⟨k, (f k).1, now1⟩] now2 k = ((f k).1, [⟨k, (f k).1, now1⟩], 0) := by
  constructor
  · rfl
  · unfold cachedCall cacheLookup
    simp [List.find?, hlt]

theorem repo_count_loop_count_ge (trace : Nat → Resp (List Repo)) :
    ∀ (fuel idx : Nat) (acc : List Repo), idx ≤ (get_repo_count_loop trace fuel idx acc).2 := by
  intro fuel
  induction fuel with
  | zero => intro idx acc; exact le_refl idx
  | succ f ih =>
    intro idx acc
    cases ht : trace idx with
    | exn => simp [get_repo_count_loop, ht]
    | ok status data =>
      simp only [get_repo_count_loop, ht]
      by_cases h1 : status ≠ 200
      · simp [if_pos h1]
      · simp only [if_neg h1]
        by_cases h2 : data = []
        · simp [if_pos h2]
        · simp only [if_neg h2]
          by_cases h3 : data.length < 100
          · simp [if_pos h3]
          · simp only [if_neg h3]
            have := ih (idx + 1) (acc ++ data)
            omega

theorem get_repo_count_requests_eq (trace : Nat → Resp (List Repo)) (fuel : Nat) :
    get_repo_count_requests trace fuel = (get_repo_count_loop trace fuel 0 []).2 := by
  unfold get_repo_count_requests get_repo_count_run
  rcases hl : get_repo_count_loop trace fuel 0 [] with ⟨res, cnt⟩
  cases res <;> simp

/-- C5 (amended): the two decorated operations (`get_daily_commit_dates`
and `get_github_monthly_commits`) are cached with a one-hour time to live:
within the TTL a second call with the same key returns the stored value
with zero network requests.  `get_repo_count` carries no cache layer and
issues at least one network request on every invocation (and likewise
`get_repos_created_this_year`, whose model always consults its response). -/
theorem caching_behaviour :
    (∀ (env : CommitsEnv) (now1 now2 : Nat) (k2 : String × Nat), now2 < now1 + 3600 →
      ∃ v store, get_daily_commit_dates_cached env [] now1 k2 = (v, store, daily_requests env)
        ∧ get_daily_commit_dates_cached env store now2 k2 = (v, store, 0))
    ∧ (∀ (env : CommitsEnv) (now1 now2 : Nat) (k2 : String × Nat), now2 < now1 + 3600 →
      ∃ v store, get_github_monthly_commits_cached env [] now1 k2 = (v, store, monthly_requests env)
        ∧ get_github_monthly_commits_cached env store now2 k2 = (v, store, 0))
    ∧ (∀ (trace : Nat → Resp (List Repo)) (fuel : Nat), 1 ≤ fuel →
        1 ≤ get_repo_count_requests trace fuel) := by
  refine ⟨?_, ?_, ?_⟩
  · intro env now1 now2 k2 hlt
    obtain ⟨h1, h2⟩ := cachedCall_second_hit
      (fun _ => (get_daily_commit_dates_run env, daily_requests env)) 3600 now1 now2 k2 hlt
    exact ⟨_, _, h1, h2⟩
  · intro env now1 now2 k2 hlt
    obtain ⟨h1, h2⟩ := cachedCall_second_hit
      (fun _ => (get_github_monthly_commits_run env, monthly_requests env)) 3600 now1 now2 k2 hlt
    exact ⟨_, _, h1, h2⟩
  · intro trace fuel hfuel
    obtain ⟨f, rfl⟩ : ∃ f, fuel = f + 1 := ⟨fuel - 1, by omega⟩
    rw [get_repo_count_requests_eq]
    cases ht : trace 0 with
    | exn => simp [get_repo_count_loop, ht]
    | ok status data =>
      simp only [get_repo_count_loop, ht]
      by_cases h1 : status ≠ 200
      · simp [if_pos h1]
      · simp only [if_neg h1]
        by_cases h2 : data = []
        · simp [if_pos h2]
        · simp only [if_neg h2]
          by_cases h3 : data.length < 100
          · simp [if_pos h3]
          · simp only [if_neg h3]
            exact repo_count_loop_count_ge trace f 1 ([] ++ data)

/-- Counterexample for C5: `get_repo_count` is not cached; a single render
issues one request here, and a second identical render issues one more —
two round trips in total where the claim allows at most one. -/
theorem repo_count_not_cached :
    get_repo_count_requests traceC5 5 = 1 ∧ repoCountTwoRenders traceC5 5 = 2 := by
  constructor
  · rfl
  · rfl

/-- Witness for C5: concrete cache hits for the two decorated operations
within the TTL, and a fresh request by the undecorated repo count. -/
theorem caching_behaviour_witness :
    (∃ v store, get_daily_commit_dates_cached envW5 [] 0 keyW5 = (v, store, daily_requests envW5)
      ∧ get_daily_commit_dates_cached envW5 store 3599 keyW5 = (v, store, 0))
    ∧ (∃ v store,
        get_github_monthly_commits_cached envW5 [] 0 keyW5 = (v, store, monthly_requests envW5)
        ∧ get_github_monthly_commits_cached envW5 store 3599 keyW5 = (v, store, 0))
    ∧ 1 ≤ get_repo_count_requests (fun _ => .ok 404 []) 3 := by
  refine ⟨?_, ?_, ?_⟩
  · exact caching_behaviour.1 envW5 0 3599 keyW5 (by omega)
  · exact caching_behaviour.2.1 envW5 0 3599 keyW5 (by omega)
  · exact caching_behaviour.2.2 (fun _ => .ok 404 []) 3 (by omega)

/-! ## Lemmas: repositories created this year -/

/-- C9 (amended): `get_repos_created_this_year` consults only the first
page of the listing; when that first page is a 200 page with fewer than
100 entries (so the listing fits within one page), its result agrees with
the specification count over the full listing. -/
theorem repos_created_this_year_single_page (trace : Nat → Resp (List Repo))
    (year fuel : Nat) (body : List Repo)
    (h0 : trace 0 = .ok 200 body) (hshort : body.length < 100) (hfuel : 1 ≤ fuel) :
    get_repos_created_this_year (trace 0) year
      = .ok (spec_countReposCreatedThisYear trace fuel year) := by
  obtain ⟨f, rfl⟩ : ∃ f, fuel = f + 1 := ⟨fuel - 1, by omega⟩
  rw [h0]
  have h200 : ¬ ((200 : Nat) ≠ 200) := by omega
  have h2xx : (200 : Nat) ≤ 200 ∧ (200 : Nat) < 300 := by omega
  unfold get_repos_created_this_year spec_countReposCreatedThisYear spec_listRepositories
  rw [h0]
  simp only [if_neg h200, if_pos h2xx, if_pos hshort, List.nil_append]
  rw [List.countP_eq_length_filter]

/-- Counterexample for C9: with a full first page of 100 repositories
created in 2025 and one more on the second page, the code counts 100
while the full-listing specification count is 101. -/
theorem repos_this_year_misses_later_pages :
    get_repos_created_this_year (traceC9 0) 2025 = .ok 100
      ∧ spec_countReposCreatedThisYear traceC9 5 2025 = 101 := by
  constructor
  · rfl
  · rfl

/-- Witness for C9: a single short page with one 2025 repository and one
2024 repository; the code and the specification count agree on 1. -/
theorem repos_created_this_year_single_page_witness :
    get_repos_created_this_year (traceW9 0) 2025
        = .ok (spec_countReposCreatedThisYear traceW9 3 2025)
      ∧ spec_countReposCreatedThisYear traceW9 3 2025 = 1 := by
  constructor
  · exact repos_created_this_year_single_page traceW9 2025 3
      [repoY, ⟨"z", false, "2024-12-31T00:00:00Z"⟩] rfl (by decide) (by omega)
  · rfl
